import Mathlib

/-!
Verification of the generic elliptic-curve engine (package `elliptic`,
file `src/elliptic/elliptic.go`) against its natural-language specification.

The engine operates on arbitrary-precision natural numbers (`safenum.Nat`)
reduced against prime moduli.  We embed machine integers as `Nat` and the
modular-arithmetic backend (spec §6: an external library with a fixed
contract) as explicit `% p` arithmetic.  Byte strings are `List Nat`
(each element a byte value).  Fallible decoders return `Option`.
-/

set_option maxRecDepth 100000

namespace CtCrypto

/-! ## Modular arithmetic backend (spec §6)

Model of the external `safenum` library operations used by the engine.
Each operation reduces its result into `[0, p)`. -/

/-- `safenum.Nat.ModAdd x y p`: `(x + y) mod p`. -/
def modAdd (x y p : Nat) : Nat := (x + y) % p

/-- `safenum.Nat.ModMul x y p`: `(x * y) mod p`. -/
def modMul (x y p : Nat) : Nat := x * y % p

/-- `safenum.Nat.ModSub x y p`: `(x - y) mod p`, the integer difference
reduced into `[0, p)`. -/
def modSub (x y p : Nat) : Nat := (x % p + p - y % p) % p

/-- Fuel-driven modular exponentiation by squaring (structural recursion on
the fuel so that the kernel can evaluate it). -/
def powModAux : Nat → Nat → Nat → Nat → Nat
  | 0, _, _, p => 1 % p
  | fuel + 1, b, e, p =>
    if e = 0 then 1 % p
    else
      let h := powModAux fuel b (e / 2) p
      let h2 := h * h % p
      if e % 2 = 1 then h2 * b % p else h2

/-- `b ^ e mod p`.  The fuel `4096` covers every exponent below `2 ^ 4096`,
far beyond the moduli appearing in this package. -/
def powMod (b e p : Nat) : Nat := powModAux 4096 b e p

/-- Modelled from the spec (§6): the backend's modular inverse
(`safenum.Nat.ModInverse`).  All moduli used by the engine are prime, so the
inverse is the Fermat inverse `a ^ (p - 2) mod p`. -/
def modInverse (a p : Nat) : Nat := powMod a (p - 2) p

/-- Fuel-driven bit length. -/
def bitLenAux : Nat → Nat → Nat
  | 0, _ => 0
  | fuel + 1, n => if n = 0 then 0 else bitLenAux fuel (n / 2) + 1

/-- `safenum.Modulus.BitLen`: the bit length of a natural number.  The fuel
`2048` is exact for every number below `2 ^ 2048`, covering the moduli of
this package. -/
def bitLen (n : Nat) : Nat := bitLenAux 2048 n

/-! ## Curve parameters (`CurveParams`) -/

/-- `CurveParams` (elliptic.go:47-54): the parameters of a curve.  `P` and
`N` are moduli, `B`, `Gx`, `Gy` are field elements; the `Name` string is
irrelevant to the arithmetic and omitted. -/
structure CurveParams where
  P : Nat
  N : Nat
  B : Nat
  Gx : Nat
  Gy : Nat
  BitSize : Nat
deriving DecidableEq

/-- `polynomial` (elliptic.go:61-72): returns `x³ - 3x + b` mod `P`. -/
def polynomial (c : CurveParams) (x : Nat) : Nat :=
  let x3 := modMul x x c.P
  let x3 := modMul x3 x c.P
  let threeX := modAdd x x c.P
  let threeX := modAdd threeX x c.P
  let x3 := modSub x3 threeX c.P
  modAdd x3 c.B c.P

/-- `IsOnCurve` (elliptic.go:74-79): `y² = x³ - 3x + b` compared as reduced
residues (`Cmp == 0`). -/
def isOnCurve (c : CurveParams) (x y : Nat) : Bool :=
  polynomial c x == modMul y y c.P

/-- `zForAffine` (elliptic.go:84-90).  The source tests
`!x.EqZero() || !x.EqZero()` — the `x` test appears twice; `y` is never
inspected.  We reproduce that faithfully. -/
def zForAffine (x y : Nat) : Nat :=
  if !(x == 0) || !(x == 0) then 1 else 0

/-- `affineFromJacobian` (elliptic.go:94-106): if `z = 0` the point is ∞ and
`(0, 0)` is returned; otherwise `(x·z⁻², y·z⁻³)`. -/
def affineFromJacobian (c : CurveParams) (x y z : Nat) : Nat × Nat :=
  if z == 0 then (0, 0)
  else
    let zinv := modInverse z c.P
    let zinvsq := modMul zinv zinv c.P
    let xOut := modMul x zinvsq c.P
    let zinvcb := modMul zinvsq zinv c.P
    let yOut := modMul y zinvcb c.P
    (xOut, yOut)

/-- `doubleJacobian` (elliptic.go:184-217): `dbl-2001-b` doubling.  Mutation
of the Go locals is rendered by shadowing. -/
def doubleJacobian (c : CurveParams) (x y z : Nat) : Nat × Nat × Nat :=
  let delta := modMul z z c.P
  let gamma := modMul y y c.P
  let alpha := modSub x delta c.P
  let alpha2 := modAdd x delta c.P
  let alpha := modMul alpha alpha2 c.P
  let alpha2 := alpha
  let alpha := modAdd alpha alpha c.P
  let alpha := modAdd alpha alpha2 c.P
  let beta := modMul x gamma c.P
  let x3 := modMul alpha alpha c.P
  let beta8 := modMul beta 8 c.P
  let x3 := modSub x3 beta8 c.P
  let z3 := modAdd y z c.P
  let z3 := modMul z3 z3 c.P
  let z3 := modSub z3 gamma c.P
  let z3 := modSub z3 delta c.P
  let beta := modMul beta 4 c.P
  let beta := modSub beta x3 c.P
  let y3 := modMul alpha beta c.P
  let gamma := modMul gamma gamma c.P
  let gamma := modMul gamma 8 c.P
  let y3 := modSub y3 gamma c.P
  (x3, y3, z3)

/-- `addJacobian` (elliptic.go:116-175): `add-2007-bl` addition with the
special-case triage (either operand ∞, equal points dispatch to doubling). -/
def addJacobian (c : CurveParams) (x1 y1 z1 x2 y2 z2 : Nat) : Nat × Nat × Nat :=
  if z1 == 0 then (x2, y2, z2)
  else if z2 == 0 then (x1, y1, z1)
  else
    let z1z1 := modMul z1 z1 c.P
    let z2z2 := modMul z2 z2 c.P
    let u1 := modMul x1 z2z2 c.P
    let u2 := modMul x2 z1z1 c.P
    let h := modSub u2 u1 c.P
    let xEqual := h == 0
    let i := modAdd h h c.P
    let i := modMul i i c.P
    let j := modMul h i c.P
    let s1 := modMul y1 z2 c.P
    let s1 := modMul s1 z2z2 c.P
    let s2 := modMul y2 z1 c.P
    let s2 := modMul s2 z1z1 c.P
    let r := modSub s2 s1 c.P
    let yEqual := r == 0
    if xEqual && yEqual then doubleJacobian c x1 y1 z1
    else
      let r := modAdd r r c.P
      let v := modMul u1 i c.P
      let x3 := modMul r r c.P
      let x3 := modSub x3 j c.P
      let x3 := modSub x3 v c.P
      let x3 := modSub x3 v c.P
      let v := modSub v x3 c.P
      let y3 := modMul r v c.P
      let s1 := modMul s1 j c.P
      let s1 := modAdd s1 s1 c.P
      let y3 := modSub y3 s1 c.P
      let z3 := modAdd z1 z2 c.P
      let z3 := modMul z3 z3 c.P
      let z3 := modSub z3 z1z1 c.P
      let z3 := modSub z3 z2z2 c.P
      let z3 := modMul z3 h c.P
      (x3, y3, z3)

/-- `Add` (elliptic.go:108-112): lift both affine operands to Jacobian form
via `zForAffine`, add, project back. -/
def add (c : CurveParams) (x1 y1 x2 y2 : Nat) : Nat × Nat :=
  let z1 := zForAffine x1 y1
  let z2 := zForAffine x2 y2
  let s := addJacobian c x1 y1 z1 x2 y2 z2
  affineFromJacobian c s.1 s.2.1 s.2.2

/-- `Double` (elliptic.go:177-180). -/
def double (c : CurveParams) (x1 y1 : Nat) : Nat × Nat :=
  let z1 := zForAffine x1 y1
  let s := doubleJacobian c x1 y1 z1
  affineFromJacobian c s.1 s.2.1 s.2.2

/-- The inner bit loop of `ScalarMult` (elliptic.go:224-230): for each of the
8 bits of a byte, MSB first, double the accumulator and, when the bit is
set, add the (Jacobian-lifted) base point.  The Go `byte <<= 1` wraps at 8
bits. -/
def scalarStep (c : CurveParams) (Bx By Bz : Nat) :
    Nat → Nat × Nat × Nat → Nat → Nat × Nat × Nat
  | 0, acc, _ => acc
  | n + 1, acc, b =>
    let acc := doubleJacobian c acc.1 acc.2.1 acc.2.2
    let acc :=
      if b &&& 0x80 == 0x80 then addJacobian c Bx By Bz acc.1 acc.2.1 acc.2.2
      else acc
    scalarStep c Bx By Bz n acc ((b <<< 1) % 256)

/-- `ScalarMult` (elliptic.go:219-234): double-and-add over the big-endian
bytes of `k`, starting from the Jacobian point at infinity `(0,0,0)`, with
`Bz = 1`. -/
def scalarMult (c : CurveParams) (Bx By : Nat) (k : List Nat) : Nat × Nat :=
  let Bz : Nat := 1
  let acc := k.foldl (fun acc b => scalarStep c Bx By Bz 8 acc b) (0, 0, 0)
  affineFromJacobian c acc.1 acc.2.1 acc.2.2

/-- `ScalarBaseMult` (elliptic.go:236-238). -/
def scalarBaseMult (c : CurveParams) (k : List Nat) : Nat × Nat :=
  scalarMult c c.Gx c.Gy k

/-! ## Point codec -/

/-- `byteLen` as computed throughout the codec: `(BitSize + 7) / 8`. -/
def byteLen (c : CurveParams) : Nat := (c.BitSize + 7) / 8

/-- Big-endian fixed-width encoding (`big.Int.FillBytes` into a buffer of
length `L`; the Go call panics when the value does not fit, so the model is
only consulted on values below `256 ^ L`). -/
def natToBytes : Nat → Nat → List Nat
  | 0, _ => []
  | L + 1, x => natToBytes L (x / 256) ++ [x % 256]

/-- Big-endian decoding (`safenum.Nat.SetBytes` / `big.Int.SetBytes`). -/
def natFromBytes (l : List Nat) : Nat :=
  l.foldl (fun acc b => acc * 256 + b) 0

/-- `Marshal` (elliptic.go:274-284): `0x04 ‖ x ‖ y`, fixed width. -/
def marshal (c : CurveParams) (x y : Nat) : List Nat :=
  4 :: (natToBytes (byteLen c) x ++ natToBytes (byteLen c) y)

/-- `MarshalCompressed` (elliptic.go:288-294): `(2 | y.Bit(0)) ‖ x`. -/
def marshalCompressed (c : CurveParams) (x y : Nat) : List Nat :=
  (2 ||| (y &&& 1)) :: natToBytes (byteLen c) x

/-- `Unmarshal` (elliptic.go:299-317): length, tag `0x04`, coordinate-range
and curve-membership checks; on failure the nil point (here `none`). -/
def unmarshal (c : CurveParams) (data : List Nat) : Option (Nat × Nat) :=
  let L := byteLen c
  match data with
  | [] => none
  | t :: rest =>
    if (t :: rest).length ≠ 1 + 2 * L then none
    else if t ≠ 4 then none
    else
      let x := natFromBytes (rest.take L)
      let y := natFromBytes (rest.drop L)
      if c.P ≤ x ∨ c.P ≤ y then none
      else if isOnCurve c x y = false then none
      else some (x, y)

/-- Modelled from the backend contract: `big.Int.ModSqrt` for prime `p`
returns a square root of `r` modulo `p` when one exists (which of the two
roots is unspecified here; the engine corrects the parity afterwards), and
reports failure otherwise. -/
def modSqrt (r p : Nat) : Option Nat :=
  (List.range p).find? fun s => s * s % p == r % p

/-- `UnmarshalCompressed` (elliptic.go:322-353).  Note: the source calls
`yBig.ModSqrt(yBig, pBig)` and discards the returned pointer, so the
following `if yBig == nil` check never fires; on a nonresidue `yBig` is
simply left unchanged (holding the polynomial value) and control falls
through to the parity fix-up and the final `IsOnCurve` check.  The model
reproduces that with `Option.getD`. -/
def unmarshalCompressed (c : CurveParams) (data : List Nat) : Option (Nat × Nat) :=
  let L := byteLen c
  match data with
  | [] => none
  | t :: rest =>
    if (t :: rest).length ≠ 1 + L then none
    else if t ≠ 2 ∧ t ≠ 3 then none
    else
      let x := natFromBytes rest
      if c.P ≤ x then none
      else
        let r := polynomial c x
        let s := (modSqrt r c.P).getD r
        let y := if s &&& 1 ≠ t &&& 1 then (c.P - s) % c.P else s
        if isOnCurve c x y = false then none
        else some (x, y)

/-! ## Key generation -/

/-- `mask` (elliptic.go:240). -/
def mask : List Nat := [0xff, 0x1, 0x3, 0x7, 0xf, 0x1f, 0x3f, 0x7f]

/-- One loop body of `GenerateKey` applied to a freshly drawn buffer
(elliptic.go:257-260): `priv[0] &= mask[bitSize%8]` followed by
`priv[1] ^= 0x42`.  (For the curves in this package `byteLen ≥ 2`; Go would
panic otherwise.) -/
def genTransform (m : Nat) (d : List Nat) : List Nat :=
  let d1 := d.set 0 (d.getD 0 0 &&& m)
  d1.set 1 (d1.getD 1 0 ^^^ 0x42)

/-- The retry loop of `GenerateKey` (elliptic.go:250-268).  The random
source is modelled as the list of successive `byteLen`-byte reads it
delivers; an exhausted list models a read error, which aborts with `none`. -/
def generateKeyAux (c : CurveParams) (m : Nat) :
    List (List Nat) → Option (List Nat × Nat × Nat)
  | [] => none
  | d :: rest =>
    let priv := genTransform m d
    if c.N ≤ natFromBytes priv then generateKeyAux c m rest
    else some (priv, scalarBaseMult c priv)

/-- `GenerateKey` (elliptic.go:244-270): `bitSize = N.BitLen()`, the mask
index is `bitSize % 8`, and each drawn buffer has `byteLen = (bitSize+7)/8`
bytes. -/
def generateKey (c : CurveParams) (draws : List (List Nat)) :
    Option (List Nat × Nat × Nat) :=
  generateKeyAux c (mask.getD (bitLen c.N % 8) 0) draws

/-! ## Concrete curves (elliptic.go:382-402, FIPS 186-3 D.2.4 / D.2.5) -/

/-- `initP384` (elliptic.go:382-391); `P`/`N` as the source's decimal
strings, `B`/`Gx`/`Gy` as its hexadecimal strings. -/
def p384 : CurveParams :=
  { P := 39402006196394479212279040100143613805079739270465446667948293404245721771496870329047266088258938001861606973112319
    N := 39402006196394479212279040100143613805079739270465446667946905279627659399113263569398956308152294913554433653942643
    B := 0xb3312fa7e23ee7e4988e056be3f82d19181d9c6efe8141120314088f5013875ac656398d8a2ed19d2a85c8edd3ec2aef
    Gx := 0xaa87ca22be8b05378eb1c71ef320ad746e1d3b628ba79b9859f741e082542a385502f25dbf55296c3a545e3872760ab7
    Gy := 0x3617de4a96262c6f5d9e98bf9292dc29f8f41dbd289a147ce9da3113b5f0b8c00a60b1ce1d7e819d7a431d7c90ea0e5f
    BitSize := 384 }

/-- `initP521` (elliptic.go:393-402). -/
def p521 : CurveParams :=
  { P := 6864797660130609714981900799081393217269435300143305409394463459185543183397656052122559640661454554977296311391480858037121987999716643812574028291115057151
    N := 6864797660130609714981900799081393217269435300143305409394463459185543183397655394245057746333217197532963996371363321113864768612440380340372808892707005449
    B := 0x051953eb9618e1c9a1f929a21a0b68540eea2da725b99b315f3b8b489918ef109e156193951ec7e937b1652c0bd3bb1bf073573df883d2c34f1ef451fd46b503f00
    Gx := 0xc6858e06b70404e9cd9e3ecb662395b4429c648139053fb521f828af606b4d3dbaa14b5e77efe75928fe1dc127a2ffa8de3348b3c1856a429bf97e7e31c2e5bd66
    Gy := 0x11839296a789a3bc0045c8a5fb42c7d1bd998f54449579b446817afbd17273e662c97ee72995ef42640c550b9013fad0761353c7086a272c24088be94769fd16650
    BitSize := 521 }

/-- A small curve satisfying every data-model invariant of the spec (§3):
`y² = x³ - 3x + 4` over `F₁₁`; the group has order 10, the base point
`(4, 1)` has prime order `N = 5`, and the constants are fully reduced.
Used to instantiate generic theorems on kernel-evaluable inputs. -/
def tinyCurve : CurveParams :=
  { P := 11, N := 5, B := 4, Gx := 4, Gy := 1, BitSize := 4 }

/-- The square root of `p384.B` modulo `p384.P` (so `(0, sqrtB384)` is a
valid point of P-384 with `x = 0`). -/
def sqrtB384 : Nat :=
  0xc306610fb0ae5a159cf45c06069f22a6c5eb3641c602d42dea2c4b4f75550793406d80d2b91ad54f9048bd487af1ade1

end CtCrypto

namespace CtCrypto

/-- A 48-byte random read consisting of `0x00, 0x42, 0x00, …`: after the
mask and the `priv[1] ^= 0x42` step the private scalar is all zero. -/
def zeroDraw : List Nat := 0 :: 0x42 :: List.replicate 46 0

/-- A 48-byte random read `0x00, …, 0x00, 0x01` (the scalar 1). -/
def oneDraw : List Nat := List.replicate 47 0 ++ [1]

end CtCrypto

namespace CtCrypto

/-! ## Helper lemmas -/

theorem modSub_self (a p : Nat) : modSub a a p = 0 := by
  unfold modSub
  rw [Nat.add_sub_cancel_left, Nat.mod_self]

/-- Doubling propagates `Z = 0` to `Z3 = 0`: with `z = 0` one gets
`delta = 0` and `z3 = (y + 0)² - y² - 0 = 0` in the field. -/
theorem doubleJacobian_z_zero (c : CurveParams) (x y : Nat) :
    (doubleJacobian c x y 0).2.2 = 0 := by
  show modSub (modSub (modMul (modAdd y 0 c.P) (modAdd y 0 c.P) c.P)
      (modMul y y c.P) c.P) (modMul 0 0 c.P) c.P = 0
  have h1 : modAdd y 0 c.P = y % c.P := by simp [modAdd]
  have h2 : modMul (y % c.P) (y % c.P) c.P = modMul y y c.P := by
    simp [modMul, Nat.mul_mod]
  have h3 : modMul 0 0 c.P = 0 := by simp [modMul]
  rw [h1, h2, modSub_self, h3, modSub_self]

/-- Processing a zero byte never adds and keeps the accumulator at `Z = 0`. -/
theorem scalarStep_zero_z (c : CurveParams) (Bx By Bz : Nat) :
    ∀ (n x y : Nat), (scalarStep c Bx By Bz n (x, y, 0) 0).2.2 = 0 := by
  intro n
  induction n with
  | zero => intro x y; rfl
  | succ n ih =>
    intro x y
    have hb : (((0 : Nat) &&& 0x80) == 0x80) = false := by decide
    have hsh : ((0 : Nat) <<< 1) % 256 = 0 := by decide
    simp only [scalarStep, hb, Bool.false_eq_true, if_false, hsh]
    have hd := doubleJacobian_z_zero c x y
    have heta : ((doubleJacobian c x y 0).1, (doubleJacobian c x y 0).2.1,
        (doubleJacobian c x y 0).2.2) = doubleJacobian c x y 0 := rfl
    rw [← heta, hd]
    exact ih _ _

/-- Folding zero bytes through the scalar-multiplication loop keeps `Z = 0`. -/
theorem foldl_scalarStep_z (c : CurveParams) (Bx By : Nat) :
    ∀ (k : List Nat), (∀ b ∈ k, b = 0) → ∀ (x y : Nat),
      (k.foldl (fun acc b => scalarStep c Bx By 1 8 acc b) (x, y, 0)).2.2 = 0 := by
  intro k
  induction k with
  | nil => intro _ x y; rfl
  | cons b t ih =>
    intro h x y
    have hb : b = 0 := h b (List.mem_cons_self _ _)
    subst hb
    simp only [List.foldl_cons]
    have hz := scalarStep_zero_z c Bx By 1 8 x y
    have heta : ((scalarStep c Bx By 1 8 (x, y, 0) 0).1,
        (scalarStep c Bx By 1 8 (x, y, 0) 0).2.1,
        (scalarStep c Bx By 1 8 (x, y, 0) 0).2.2) =
        scalarStep c Bx By 1 8 (x, y, 0) 0 := rfl
    rw [← heta, hz]
    exact ih (fun b hb => h b (List.mem_cons_of_mem _ hb)) _ _

/-- `ScalarMult` of an all-zero scalar is the affine infinity sentinel. -/
theorem scalarMult_zeros (c : CurveParams) (Bx By : Nat) (k : List Nat)
    (hk : ∀ b ∈ k, b = 0) : scalarMult c Bx By k = (0, 0) := by
  simp only [scalarMult]
  have hz := foldl_scalarStep_z c Bx By k hk 0 0
  rw [hz]
  rfl

theorem scalarBaseMult_p384_zeros :
    scalarBaseMult p384 (List.replicate 48 0) = (0, 0) :=
  scalarMult_zeros p384 p384.Gx p384.Gy _
    (fun _ hb => List.eq_of_mem_replicate hb)

/-- `GenerateKey` on P-384 with the `zeroDraw` read: the transformed scalar
is all-zero, passes the range check, and the public point is the infinity
sentinel. -/
theorem generateKey_p384_zeroDraw :
    generateKey p384 [zeroDraw] = some (List.replicate 48 0, 0, 0) := by
  have hm : mask.getD (bitLen p384.N % 8) 0 = 0xff := by decide
  unfold generateKey
  rw [hm]
  simp only [generateKeyAux]
  have ht : genTransform 0xff zeroDraw = List.replicate 48 0 := by decide
  rw [ht, if_neg (by decide), scalarBaseMult_p384_zeros]

/-- Every successful run of the `GenerateKey` retry loop returns the
mask-and-xor transform of one of the delivered reads, in range `[0, N)`,
with the public point computed from exactly those bytes. -/
theorem generateKeyAux_spec (c : CurveParams) (m : Nat) :
    ∀ (draws : List (List Nat)) (priv : List Nat) (x y : Nat),
      generateKeyAux c m draws = some (priv, x, y) →
      ∃ d ∈ draws, priv = genTransform m d ∧ natFromBytes priv < c.N ∧
        (x, y) = scalarBaseMult c priv := by
  intro draws
  induction draws with
  | nil => intro priv x y h; exact absurd h (by simp [generateKeyAux])
  | cons d rest ih =>
    intro priv x y h
    simp only [generateKeyAux] at h
    split at h
    · obtain ⟨d', hd', hspec⟩ := ih priv x y h
      exact ⟨d', List.mem_cons_of_mem _ hd', hspec⟩
    · rename_i hlt
      rw [Option.some.injEq, Prod.mk.injEq] at h
      obtain ⟨hp, hxy⟩ := h
      subst hp
      exact ⟨d, List.mem_cons_self _ _, rfl, by omega, hxy.symm⟩

end CtCrypto

namespace CtCrypto

/-! ## Claim C2 -/

/-- C2 (code bug): `zForAffine` is documented (and specified) to return
`Z = 1` for any affine input other than the sentinel `(0, 0)`; in particular
`Z = 1` when `x = 0` and `y ≠ 0`.  The source tests `x` twice instead of
`x` and `y`, so `zForAffine 0 1` evaluates to `0`, treating the valid input
`(0, 1)` as the point at infinity. -/
theorem c2_zForAffine_checks_x_twice :
    zForAffine 0 1 = 0 ∧ zForAffine 0 5 = 0 ∧
    zForAffine 0 0 = 0 ∧ zForAffine 1 0 = 1 := by decide

/-! ## Claim C6 -/

/-- C6: `doubleJacobian` maps any Jacobian point with `Z = 0` to a result
with `Z3 = 0`, and consequently `ScalarMult` of any base point by an
all-zero byte string (of any length, including empty) returns the affine
infinity sentinel `(0, 0)`. -/
theorem c6_scalarMult_zero_scalar :
    (∀ (c : CurveParams) (x y : Nat), (doubleJacobian c x y 0).2.2 = 0) ∧
    (∀ (c : CurveParams) (x1 y1 : Nat) (k : List Nat), (∀ b ∈ k, b = 0) →
      scalarMult c x1 y1 k = (0, 0)) :=
  ⟨doubleJacobian_z_zero, scalarMult_zeros⟩

theorem c6_witness :
    scalarMult tinyCurve 4 1 [0, 0] = (0, 0) ∧ scalarMult p384 p384.Gx p384.Gy [] = (0, 0) :=
  ⟨c6_scalarMult_zero_scalar.2 tinyCurve 4 1 [0, 0] (by decide),
   c6_scalarMult_zero_scalar.2 p384 p384.Gx p384.Gy [] (by simp)⟩

/-! ## Claim C7 -/

/-- C7 (code bug): `(0, sqrtB384)` is a valid finite point of P-384
(`x` fully reduced, on the curve), yet `Add` with the infinity sentinel
returns `(0, 0)` instead of the point, in both argument orders: the
`zForAffine` defect makes `Add` treat any point with `x = 0` as infinity. -/
theorem c7_add_infinity_identity_fails :
    isOnCurve p384 0 sqrtB384 = true ∧ sqrtB384 < p384.P ∧ 0 < sqrtB384 ∧
    add p384 0 sqrtB384 0 0 = (0, 0) ∧
    add p384 0 0 0 sqrtB384 = (0, 0) := by decide

/-! ## Claim C1 -/

/-- C1 (amended): every successful `GenerateKey` run returns as private key
the bytes of one delivered random read transformed by `priv[0] &= mask[bitLen N mod 8]`
AND `priv[1] ^= 0x42` (the extra xor is applied by the source at
elliptic.go:260), that value is `< N`, and the public point is
`ScalarBaseMult` of exactly those transformed bytes. -/
theorem c1_generateKey_transform (c : CurveParams) (draws : List (List Nat))
    (priv : List Nat) (x y : Nat)
    (hlen : ∀ d ∈ draws, d.length = (bitLen c.N + 7) / 8)
    (h : generateKey c draws = some (priv, x, y)) :
    ∃ d ∈ draws,
      priv = genTransform (mask.getD (bitLen c.N % 8) 0) d ∧
      natFromBytes priv < c.N ∧ (x, y) = scalarBaseMult c priv :=
  generateKeyAux_spec c _ draws priv x y h

theorem c1_witness :
    ∃ d ∈ [zeroDraw],
      List.replicate 48 0 = genTransform (mask.getD (bitLen p384.N % 8) 0) d ∧
      natFromBytes (List.replicate 48 0) < p384.N ∧
      ((0 : Nat), (0 : Nat)) = scalarBaseMult p384 (List.replicate 48 0) :=
  c1_generateKey_transform p384 [zeroDraw] (List.replicate 48 0) 0 0
    (by decide) generateKey_p384_zeroDraw

/-- C1 counterexample: with the single P-384 random read `oneDraw`
(`0x00…0x01`), the claim predicts the private key equals the mask-only
transform of the drawn bytes (here: the drawn bytes unchanged, whose value
is in range, so no redraw happens), but `GenerateKey` returns a different
byte string — byte 1 has been xored with `0x42`. -/
theorem c1_counterexample :
    natFromBytes (oneDraw.set 0 (oneDraw.getD 0 0 &&& mask.getD (bitLen p384.N % 8) 0)) < p384.N ∧
    (generateKey p384 [oneDraw]).map (fun r => r.1) =
      some (0 :: 0x42 :: (List.replicate 45 0 ++ [1])) ∧
    (generateKey p384 [oneDraw]).map (fun r => r.1) ≠
      some (oneDraw.set 0 (oneDraw.getD 0 0 &&& mask.getD (bitLen p384.N % 8) 0)) := by
  decide

/-! ## Claim C8 -/

/-- C8 (amended): for every successful run of `GenerateKey`, the returned
private scalar interpreted as a big-endian integer is in `[0, N)` and the
returned public point equals `ScalarBaseMult` of the returned private key
bytes.  (The claim's further assertion that the public point always
satisfies `IsOnCurve` fails: see the counterexample, where the point is the
infinity sentinel.) -/
theorem c8_generateKey_range (c : CurveParams) (draws : List (List Nat))
    (priv : List Nat) (x y : Nat)
    (h : generateKey c draws = some (priv, x, y)) :
    natFromBytes priv < c.N ∧ (x, y) = scalarBaseMult c priv := by
  obtain ⟨d, _, _, hr, hxy⟩ := generateKeyAux_spec c _ draws priv x y h
  exact ⟨hr, hxy⟩

theorem c8_witness :
    natFromBytes (List.replicate 48 0) < p384.N ∧
    ((0 : Nat), (0 : Nat)) = scalarBaseMult p384 (List.replicate 48 0) :=
  c8_generateKey_range p384 [zeroDraw] (List.replicate 48 0) 0 0
    generateKey_p384_zeroDraw

/-- C8 counterexample: the random read `zeroDraw` makes `GenerateKey` on
P-384 succeed with the all-zero private scalar and the public point
`(0, 0)` — the infinity sentinel, which does not satisfy `IsOnCurve`. -/
theorem c8_counterexample :
    generateKey p384 [zeroDraw] = some (List.replicate 48 0, 0, 0) ∧
    isOnCurve p384 0 0 = false :=
  ⟨generateKey_p384_zeroDraw, by decide⟩

end CtCrypto

namespace CtCrypto

/-! ## Codec helper lemmas -/

theorem natToBytes_length (L : Nat) : ∀ x, (natToBytes L x).length = L := by
  induction L with
  | zero => intro x; rfl
  | succ L ih => intro x; simp [natToBytes, ih]

theorem natFromBytes_append_one (l : List Nat) (b : Nat) :
    natFromBytes (l ++ [b]) = natFromBytes l * 256 + b := by
  simp [natFromBytes, List.foldl_append]

theorem natFromBytes_natToBytes (L : Nat) :
    ∀ x, x < 256 ^ L → natFromBytes (natToBytes L x) = x := by
  induction L with
  | zero =>
    intro x h
    have : x = 0 := by simpa using h
    subst this; rfl
  | succ L ih =>
    intro x h
    have hq : x / 256 < 256 ^ L := by
      rw [Nat.div_lt_iff_lt_mul (by norm_num)]
      calc x < 256 ^ (L + 1) := h
        _ = 256 ^ L * 256 := by rw [Nat.pow_succ]
    simp only [natToBytes, natFromBytes_append_one, ih (x / 256) hq]
    omega

theorem unmarshal_nil (c : CurveParams) : unmarshal c [] = none := rfl

theorem unmarshalCompressed_nil (c : CurveParams) :
    unmarshalCompressed c [] = none := rfl

/-- Characterization of `Unmarshal` on a nonempty input. -/
theorem unmarshal_cons_eq (c : CurveParams) (t : Nat) (rest : List Nat) :
    unmarshal c (t :: rest) =
      if rest.length = 2 * byteLen c ∧ t = 4 ∧
          natFromBytes (rest.take (byteLen c)) < c.P ∧
          natFromBytes (rest.drop (byteLen c)) < c.P ∧
          isOnCurve c (natFromBytes (rest.take (byteLen c)))
            (natFromBytes (rest.drop (byteLen c))) = true then
        some (natFromBytes (rest.take (byteLen c)),
              natFromBytes (rest.drop (byteLen c)))
      else none := by
  simp only [unmarshal, List.length_cons]
  split_ifs <;> simp_all <;> omega

/-- Characterization of `UnmarshalCompressed` on a nonempty input. -/
theorem unmarshalCompressed_cons_eq (c : CurveParams) (t : Nat) (rest : List Nat) :
    unmarshalCompressed c (t :: rest) =
      if rest.length = byteLen c ∧ (t = 2 ∨ t = 3) ∧ natFromBytes rest < c.P then
        (let x := natFromBytes rest
         let r := polynomial c x
         let s := (modSqrt r c.P).getD r
         let y := if s &&& 1 ≠ t &&& 1 then (c.P - s) % c.P else s
         if isOnCurve c x y = true then some (x, y) else none)
      else none := by
  simp only [unmarshalCompressed, List.length_cons]
  split_ifs <;> simp_all <;> omega

end CtCrypto

namespace CtCrypto

theorem unmarshal_some_isOnCurve (c : CurveParams) (d : List Nat) (x y : Nat)
    (h : unmarshal c d = some (x, y)) : isOnCurve c x y = true := by
  cases d with
  | nil => exact absurd h (by simp [unmarshal_nil])
  | cons t rest =>
    rw [unmarshal_cons_eq] at h
    split at h
    · rename_i hc
      rw [Option.some.injEq, Prod.mk.injEq] at h
      obtain ⟨hx, hy⟩ := h
      rw [← hx, ← hy]
      exact hc.2.2.2.2
    · exact absurd h (by simp)

theorem ite_isOnCurve_inv (c : CurveParams) (X Y x y : Nat)
    (h : (if isOnCurve c X Y = true then some (X, Y) else none) = some (x, y)) :
    isOnCurve c x y = true := by
  split at h
  · rename_i hc
    rw [Option.some.injEq, Prod.mk.injEq] at h
    obtain ⟨hx, hy⟩ := h
    rw [← hx, ← hy]
    exact hc
  · exact absurd h (by simp)

theorem unmarshalCompressed_some_isOnCurve (c : CurveParams) (d : List Nat)
    (x y : Nat) (h : unmarshalCompressed c d = some (x, y)) :
    isOnCurve c x y = true := by
  cases d with
  | nil => exact absurd h (by simp [unmarshalCompressed_nil])
  | cons t rest =>
    rw [unmarshalCompressed_cons_eq] at h
    simp only at h
    split at h
    · exact ite_isOnCurve_inv c _ _ x y h
    · exact absurd h (by simp)

/-! ## Claim C5 -/

/-- C5: `Unmarshal` returns the nil point unless the input has length
exactly `1 + 2·byteLen`, its first byte is `0x04`, both decoded coordinates
are strictly below `P`, and `IsOnCurve` holds; when all checks pass it
returns the decoded pair. -/
theorem c5_unmarshal_validation (c : CurveParams) (data : List Nat) :
    unmarshal c data =
      if data.length = 1 + 2 * byteLen c ∧ data.getD 0 0 = 4 ∧
          natFromBytes ((data.drop 1).take (byteLen c)) < c.P ∧
          natFromBytes ((data.drop 1).drop (byteLen c)) < c.P ∧
          isOnCurve c (natFromBytes ((data.drop 1).take (byteLen c)))
            (natFromBytes ((data.drop 1).drop (byteLen c))) = true then
        some (natFromBytes ((data.drop 1).take (byteLen c)),
              natFromBytes ((data.drop 1).drop (byteLen c)))
      else none := by
  cases data with
  | nil =>
    rw [unmarshal_nil]
    split
    · rename_i hc
      exfalso
      have h1 := hc.1
      simp only [List.length_nil] at h1
      omega
    · rfl
  | cons t rest =>
    rw [unmarshal_cons_eq]
    have hd : (t :: rest).drop 1 = rest := rfl
    have hg : (t :: rest).getD 0 0 = t := List.getD_cons_zero
    rw [hd, hg]
    exact if_congr (by simp only [List.length_cons]; constructor <;>
      (intro h; exact ⟨by omega, h.2⟩)) rfl rfl

/-! ## Claim C9 -/

/-- C9: neither decoder ever returns the infinity sentinel `(0, 0)` on
success for P-384 or P-521: success requires `IsOnCurve`, and
`IsOnCurve 0 0` reduces to `B mod P = 0`, false for both parameter sets. -/
theorem c9_decoders_never_return_infinity (data : List Nat) (x y : Nat)
    (h : unmarshal p384 data = some (x, y) ∨
         unmarshalCompressed p384 data = some (x, y) ∨
         unmarshal p521 data = some (x, y) ∨
         unmarshalCompressed p521 data = some (x, y)) :
    ¬(x = 0 ∧ y = 0) := by
  rintro ⟨rfl, rfl⟩
  have hOn : isOnCurve p384 0 0 = true ∨ isOnCurve p521 0 0 = true := by
    rcases h with h | h | h | h
    · exact Or.inl (unmarshal_some_isOnCurve _ _ _ _ h)
    · exact Or.inl (unmarshalCompressed_some_isOnCurve _ _ _ _ h)
    · exact Or.inr (unmarshal_some_isOnCurve _ _ _ _ h)
    · exact Or.inr (unmarshalCompressed_some_isOnCurve _ _ _ _ h)
  rcases hOn with h' | h' <;> revert h' <;> decide

theorem c9_witness : ¬(p384.Gx = 0 ∧ p384.Gy = 0) :=
  c9_decoders_never_return_infinity (marshal p384 p384.Gx p384.Gy)
    p384.Gx p384.Gy (Or.inl (by decide))

end CtCrypto

namespace CtCrypto

/-! ## Square roots modulo a prime -/

theorem modSqrt_eq_none_iff (r p : Nat) :
    modSqrt r p = none ↔ ∀ s, s < p → s * s % p ≠ r % p := by
  unfold modSqrt
  rw [List.find?_eq_none]
  constructor
  · intro h s hs hsq
    exact absurd (by simpa using hsq) (by simpa using h s (List.mem_range.mpr hs))
  · intro h s hs
    simp only [beq_iff_eq]
    exact h s (List.mem_range.mp hs)

theorem modSqrt_some (r p s : Nat) (h : modSqrt r p = some s) :
    s < p ∧ s * s % p = r % p := by
  have h1 := List.find?_some h
  have h2 := List.mem_of_find?_eq_some h
  exact ⟨List.mem_range.mp h2, by simpa using h1⟩

theorem modSqrt_exists (r p y : Nat) (hy : y < p) (h : y * y % p = r % p) :
    ∃ s, modSqrt r p = some s := by
  cases hfind : modSqrt r p with
  | some s => exact ⟨s, rfl⟩
  | none => exact absurd h ((modSqrt_eq_none_iff r p).mp hfind y hy)

theorem polynomial_lt (c : CurveParams) (x : Nat) (h : 0 < c.P) :
    polynomial c x < c.P := by
  unfold polynomial modAdd
  exact Nat.mod_lt _ h

/-- In a prime field, two naturals below `p` with equal squares mod `p` are
equal or negatives of each other. -/
theorem sq_roots_cases (p : Nat) (hp : Nat.Prime p) (s y : Nat)
    (hs : s < p) (hy : y < p) (h : s * s % p = y * y % p) :
    s = y ∨ s = (p - y) % p := by
  haveI := Fact.mk hp
  haveI : NeZero p := ⟨hp.pos.ne'⟩
  have hcast : (s : ZMod p) * s = (y : ZMod p) * y := by
    have h0 := (ZMod.natCast_eq_natCast_iff' (s * s) (y * y) p).mpr h
    push_cast at h0
    exact h0
  rcases mul_self_eq_mul_self_iff.mp hcast with h1 | h1
  · left
    have h2 := congrArg ZMod.val h1
    rwa [ZMod.val_cast_of_lt hs, ZMod.val_cast_of_lt hy] at h2
  · right
    have hcast2 : (((p - y) % p : Nat) : ZMod p) = -(y : ZMod p) := by
      rw [ZMod.natCast_mod, Nat.cast_sub (le_of_lt hy), ZMod.natCast_self, zero_sub]
    have h2 := congrArg ZMod.val (h1.trans hcast2.symm)
    rwa [ZMod.val_cast_of_lt hs,
      ZMod.val_cast_of_lt (Nat.mod_lt _ hp.pos)] at h2

/-- In a prime field, a residue equal to its own square is `0` or `1`. -/
theorem sq_eq_self_cases (p : Nat) (hp : Nat.Prime p) (r : Nat)
    (h : r * r % p = r % p) : r % p = 0 ∨ r % p = 1 := by
  haveI := Fact.mk hp
  haveI : NeZero p := ⟨hp.pos.ne'⟩
  have hcast : (r : ZMod p) * r = (r : ZMod p) := by
    have h0 := (ZMod.natCast_eq_natCast_iff' (r * r) r p).mpr h
    push_cast at h0
    exact h0
  have hfac : (r : ZMod p) * ((r : ZMod p) - 1) = 0 := by
    rw [mul_sub, mul_one, hcast, sub_self]
  rcases mul_eq_zero.mp hfac with h1 | h1
  · left
    have h2 := congrArg ZMod.val h1
    rwa [ZMod.val_natCast, ZMod.val_zero] at h2
  · right
    have h2 : (r : ZMod p) = 1 := by
      have := sub_eq_zero.mp h1
      simpa using this
    have h3 := congrArg ZMod.val (h2)
    rwa [ZMod.val_natCast, ZMod.val_one] at h3

/-- Squaring is invariant under negation mod `p`. -/
theorem neg_sq_mod (p s : Nat) (hs : s < p) :
    ((p - s) % p) * ((p - s) % p) % p = s * s % p := by
  haveI : NeZero p := ⟨by omega⟩
  have h1 : (((p - s) % p : Nat) : ZMod p) = -(s : ZMod p) := by
    rw [ZMod.natCast_mod, Nat.cast_sub (le_of_lt hs), ZMod.natCast_self, zero_sub]
  have h2 : ((((p - s) % p) * ((p - s) % p) : Nat) : ZMod p) =
      ((s * s : Nat) : ZMod p) := by
    push_cast
    rw [h1, neg_mul_neg]
  exact (ZMod.natCast_eq_natCast_iff' _ _ p).mp h2
end CtCrypto

namespace CtCrypto

/-- Uncompressed round trip: decoding an encoded reduced on-curve point
gives the point back. -/
theorem unmarshal_marshal (c : CurveParams) (x y : Nat)
    (hx : x < c.P) (hy : y < c.P) (hcurve : isOnCurve c x y = true)
    (hsize : c.P ≤ 256 ^ byteLen c) :
    unmarshal c (marshal c x y) = some (x, y) := by
  have hfx : natFromBytes (natToBytes (byteLen c) x) = x :=
    natFromBytes_natToBytes _ _ (lt_of_lt_of_le hx hsize)
  have hfy : natFromBytes (natToBytes (byteLen c) y) = y :=
    natFromBytes_natToBytes _ _ (lt_of_lt_of_le hy hsize)
  have hlx := natToBytes_length (byteLen c) x
  show unmarshal c
      (4 :: (natToBytes (byteLen c) x ++ natToBytes (byteLen c) y)) = some (x, y)
  rw [unmarshal_cons_eq, List.take_left' hlx, List.drop_left' hlx, hfx, hfy]
  rw [if_pos ⟨by simp [List.length_append, natToBytes_length]; ring, rfl, hx, hy, hcurve⟩]

/-- Compressed round trip: the parity tag selects the encoded root back. -/
theorem unmarshalCompressed_marshalCompressed (c : CurveParams)
    (hp : Nat.Prime c.P) (hp2 : c.P ≠ 2) (x y : Nat)
    (hx : x < c.P) (hy : y < c.P) (hcurve : isOnCurve c x y = true)
    (hsize : c.P ≤ 256 ^ byteLen c) :
    unmarshalCompressed c (marshalCompressed c x y) = some (x, y) := by
  have hfx : natFromBytes (natToBytes (byteLen c) x) = x :=
    natFromBytes_natToBytes _ _ (lt_of_lt_of_le hx hsize)
  have hlx := natToBytes_length (byteLen c) x
  have hodd : c.P % 2 = 1 := Nat.odd_iff.mp (hp.odd_of_ne_two hp2)
  have ht : (2 ||| (y &&& 1)) = 2 ∨ (2 ||| (y &&& 1)) = 3 := by
    rw [Nat.and_one_is_mod]
    rcases Nat.mod_two_eq_zero_or_one y with h | h <;> rw [h]
    · exact Or.inl (by decide)
    · exact Or.inr (by decide)
  have ht2 : (2 ||| y % 2) % 2 = y % 2 := by
    rcases Nat.mod_two_eq_zero_or_one y with h | h <;> rw [h] <;> decide
  have hpoly : polynomial c x = y * y % c.P := by
    simpa [isOnCurve] using hcurve
  have hrlt : polynomial c x < c.P := polynomial_lt c x hp.pos
  have hyr : y * y % c.P = polynomial c x % c.P := by
    rw [Nat.mod_eq_of_lt hrlt, hpoly]
  obtain ⟨s, hfind⟩ := modSqrt_exists (polynomial c x) c.P y hy hyr
  obtain ⟨hslt, hssq⟩ := modSqrt_some _ _ _ hfind
  show unmarshalCompressed c
      ((2 ||| (y &&& 1)) :: natToBytes (byteLen c) x) = some (x, y)
  rw [unmarshalCompressed_cons_eq]
  rw [if_pos ⟨hlx, ht, by rw [hfx]; exact hx⟩]
  simp only [hfx, hfind, Option.getD_some, Nat.and_one_is_mod, ht2]
  have hyout : (if s % 2 ≠ y % 2 then (c.P - s) % c.P else s) = y := by
    rcases sq_roots_cases c.P hp s y hslt hy (by rw [hssq, ← hyr]) with hsy | hsy
    · rw [if_neg (by rw [hsy]; exact fun hc => hc rfl)]
      exact hsy
    · by_cases hy0 : y = 0
      · subst hy0
        have hs0 : s = 0 := by rw [hsy, Nat.sub_zero, Nat.mod_self]
        rw [if_neg (by rw [hs0]; exact fun hc => hc rfl)]
        exact hs0
      · have hylt : c.P - y < c.P := by omega
        have hs_eq : s = c.P - y := by rw [hsy, Nat.mod_eq_of_lt hylt]
        have hpar : s % 2 ≠ y % 2 := by rw [hs_eq]; omega
        rw [if_pos hpar, hs_eq]
        have : c.P - (c.P - y) = y := by omega
        rw [this, Nat.mod_eq_of_lt hy]
  rw [hyout, if_pos hcurve]

end CtCrypto

namespace CtCrypto

/-! ## Claim C4 -/

/-- C4: for every valid finite point (coordinates fully reduced and on the
curve, over a curve whose field modulus is an odd prime fitting in
`byteLen` bytes), both wire-format round trips return exactly the point:
`Unmarshal (Marshal P) = P` and
`UnmarshalCompressed (MarshalCompressed P) = P`. -/
theorem c4_roundtrip (c : CurveParams) (x y : Nat)
    (hp : Nat.Prime c.P) (hp2 : c.P ≠ 2)
    (hx : x < c.P) (hy : y < c.P) (hcurve : isOnCurve c x y = true)
    (hsize : c.P ≤ 256 ^ byteLen c) :
    unmarshal c (marshal c x y) = some (x, y) ∧
    unmarshalCompressed c (marshalCompressed c x y) = some (x, y) :=
  ⟨unmarshal_marshal c x y hx hy hcurve hsize,
   unmarshalCompressed_marshalCompressed c hp hp2 x y hx hy hcurve hsize⟩

theorem c4_witness :
    unmarshal tinyCurve (marshal tinyCurve 4 1) = some (4, 1) ∧
    unmarshalCompressed tinyCurve (marshalCompressed tinyCurve 4 1) = some (4, 1) :=
  c4_roundtrip tinyCurve 4 1 (by norm_num [tinyCurve]) (by decide) (by decide) (by decide)
    (by decide) (by decide)

end CtCrypto

namespace CtCrypto

/-! ## Claim C3 -/

/-- C3 (amended): over an odd prime field, for every compressed input
passing the length, tag and `x < P` checks: (a) if the curve polynomial
value has no square root modulo `P`, decoding fails (the source reaches
this outcome through the final `IsOnCurve` check — its `yBig == nil` test
is dead code — but fails all the same); and (b) on success the returned
`y` satisfies `IsOnCurve`, and its low bit equals the tag's low bit
whenever the polynomial value is nonzero (for a root of the polynomial the
decoded `y` is `0`, whose low bit is `0` regardless of the tag). -/
theorem c3_unmarshalCompressed_sqrt (c : CurveParams) (t : Nat) (rest : List Nat)
    (hp : Nat.Prime c.P) (hp2 : c.P ≠ 2)
    (hlen : rest.length = byteLen c) (ht : t = 2 ∨ t = 3)
    (hxlt : natFromBytes rest < c.P) :
    (modSqrt (polynomial c (natFromBytes rest)) c.P = none →
      unmarshalCompressed c (t :: rest) = none) ∧
    (∀ x y : Nat, unmarshalCompressed c (t :: rest) = some (x, y) →
      isOnCurve c x y = true ∧
      (polynomial c (natFromBytes rest) ≠ 0 → y &&& 1 = t &&& 1)) := by
  have hrlt : polynomial c (natFromBytes rest) < c.P :=
    polynomial_lt c _ hp.pos
  have hodd : c.P % 2 = 1 := Nat.odd_iff.mp (hp.odd_of_ne_two hp2)
  have partA : modSqrt (polynomial c (natFromBytes rest)) c.P = none →
      unmarshalCompressed c (t :: rest) = none := by
    intro hnone
    have hnosq := (modSqrt_eq_none_iff _ _).mp hnone
    rw [unmarshalCompressed_cons_eq, if_pos ⟨hlen, ht, hxlt⟩]
    simp only [hnone, Option.getD_none]
    set r := polynomial c (natFromBytes rest) with hrdef
    set yOut := (if r &&& 1 ≠ t &&& 1 then (c.P - r) % c.P else r) with hydef
    have hy2 : yOut * yOut % c.P = r * r % c.P := by
      rw [hydef]
      rcases Classical.em (r &&& 1 ≠ t &&& 1) with hc | hc
      · rw [if_pos hc, neg_sq_mod c.P r hrlt]
      · rw [if_neg hc]
    have hoc : isOnCurve c (natFromBytes rest) yOut = false := by
      cases hoc : isOnCurve c (natFromBytes rest) yOut with
      | false => rfl
      | true =>
        exfalso
        have hpoly : r = yOut * yOut % c.P := by
          have h0 : polynomial c (natFromBytes rest) = modMul yOut yOut c.P := by
            simpa [isOnCurve] using hoc
          rw [hrdef, h0, modMul]
        rw [hy2] at hpoly
        have hcases := sq_eq_self_cases c.P hp r
          (by rw [← hpoly, Nat.mod_eq_of_lt hrlt])
        rw [Nat.mod_eq_of_lt hrlt] at hcases
        rcases hcases with h0 | h1
        · exact hnosq 0 hp.pos (by rw [h0])
        · exact hnosq 1 hp.one_lt (by rw [h1])
    rw [hoc]
    simp
  refine ⟨partA, ?_⟩
  intro x y h
  have honc := unmarshalCompressed_some_isOnCurve c _ _ _ h
  refine ⟨honc, ?_⟩
  intro hr0
  cases hfind : modSqrt (polynomial c (natFromBytes rest)) c.P with
  | none => exact absurd h (by rw [partA hfind]; simp)
  | some s =>
    obtain ⟨hslt, hssq⟩ := modSqrt_some _ _ _ hfind
    have hs0 : s ≠ 0 := by
      intro hs
      subst hs
      rw [Nat.mod_eq_of_lt hrlt] at hssq
      exact hr0 (by simpa using hssq.symm)
    rw [unmarshalCompressed_cons_eq, if_pos ⟨hlen, ht, hxlt⟩] at h
    simp only [hfind, Option.getD_some] at h
    split at h
    · rename_i hc
      split at h
      · rw [Option.some.injEq, Prod.mk.injEq] at h
        obtain ⟨hx', hy'⟩ := h
        rw [← hy']
        have hps : (c.P - s) % c.P = c.P - s := Nat.mod_eq_of_lt (by omega)
        rw [hps]
        rw [Nat.and_one_is_mod, Nat.and_one_is_mod] at hc ⊢
        rcases ht with ht' | ht' <;> rw [ht'] at hc ⊢ <;> omega
      · exact absurd h (by simp)
    · rename_i hc
      split at h
      · rw [Option.some.injEq, Prod.mk.injEq] at h
        obtain ⟨hx', hy'⟩ := h
        rw [← hy']
        exact not_not.mp (by simpa using hc)
      · exact absurd h (by simp)

/-- C3 counterexample: on the small curve `tinyCurve` (`p = 11`, `B = 4`,
both `p` and the base-point order prime), the compressed input
`[0x03, 0x03]` passes the length, tag and `x < P` checks; the polynomial
value at `x = 3` is `0`, decoding succeeds with `y = 0`, and the low bit of
`y` (`0`) differs from the low bit of the tag byte (`1`). -/
theorem c3_counterexample :
    unmarshalCompressed tinyCurve [3, 3] = some (3, 0) ∧
    polynomial tinyCurve 3 = 0 ∧
    ¬((0 : Nat) &&& 1 = 3 &&& 1) := by decide

theorem c3_witness :
    unmarshalCompressed tinyCurve [2, 1] = none :=
  (c3_unmarshalCompressed_sqrt tinyCurve 2 [1] (by norm_num [tinyCurve])
    (by decide) (by decide) (Or.inl rfl) (by decide)).1 (by decide)

end CtCrypto
